import Mathlib

/-!
Verification of the splat/geomusic audio core (`_geomusic.c`, `filter.c`).

The embedding models a `Fragment` (multi-channel sample buffer) as a record
whose per-channel data is a total function over sample indices; the C code
only ever touches indices `c < n_channels`, `i < length`, and every operation
below guards its writes with exactly the index ranges the C loops visit, so
indices outside those ranges act as the untouched memory around the buffer.
Sample arithmetic (C `float`/`double`) is modelled exactly, over `ℚ` where the
computation is rational and over `ℝ` where the code calls `pow10`/`sin`.
-/

namespace Splat

/-- A `Fragment` (struct Fragment_object): channel count, sample rate, length
and the per-channel sample data; `data c i` is sample `i` of channel `c`. -/
structure Fragment (α : Type) where
  n_channels : ℕ
  rate : ℕ
  length : ℕ
  data : ℕ → ℕ → α

/-- C `do_resize` (`_geomusic.c:207`): requests not exceeding the current
length are a no-op; otherwise every channel grows to `n` and the new tail
`[length, n)` is zero-filled (`memset`); memory beyond `n` is untouched. -/
def do_resize {α : Type} [Zero α] (frag : Fragment α) (n : ℕ) : Fragment α :=
  if n ≤ frag.length then frag
  else
    { frag with
      length := n
      data := fun c i =>
        if c < frag.n_channels ∧ frag.length ≤ i ∧ i < n then 0
        else frag.data c i }

/-- The swap loop of `geomusic_reverse` (`_geomusic.c:867`) and
`splat_filter_reverse` (`filter.c:45`): swap `a i` with `a j` and move both
cursors inwards while `i < j`. -/
def revLoop {α : Type} (a : ℕ → α) (i j : ℕ) : ℕ → α :=
  if h : i < j then
    revLoop (fun x => if x = i then a j else if x = j then a i else a x) (i + 1) (j - 1)
  else a
termination_by j - i
decreasing_by omega

/-- C `geomusic_reverse` (`_geomusic.c:854`): run the swap loop on every
channel, from index `0` and `length - 1`.  (For `length = 0` the C loop
would read out of bounds, so theorems below assume `0 < length`.) -/
def geomusic_reverse {α : Type} (frag : Fragment α) : Fragment α :=
  { frag with
    data := fun c =>
      if c < frag.n_channels then revLoop (frag.data c) 0 (frag.length - 1)
      else frag.data c }

/-- One tap of the reverb accumulation (`c_data[i + c_delay[d].time] += s *
c_delay[d].gain` with `s` already read): add `s * gain` at index `i + time`. -/
def tapStep {α : Type} [CommRing α] (s : α) (i : ℕ) (b : ℕ → α) (d : ℕ × α) : ℕ → α :=
  fun j => if j = i + d.1 then b (i + d.1) + s * d.2 else b j

/-- The inner delay loop of the reverb pass (`filter.c:71`, `_geomusic.c:1010`):
read `s = a i` once, then add `s * gain` at `i + time` for every tap in order. -/
def applyDelays {α : Type} [CommRing α] (ds : List (ℕ × α)) (i : ℕ) (a : ℕ → α) : ℕ → α :=
  ds.foldl (tapStep (a i) i) a

/-- The per-channel reverb accumulation pass of `splat_filter_reverb`
(`filter.c:62`) and `geomusic_reverb` (`_geomusic.c:1001`): walk the sample
index from `m` (which the callers set to `old_length - 1`) down to `0`
(a `do { .. } while (i--)` loop), applying every tap at each index. -/
def splat_filter_reverb {α : Type} [CommRing α] (ds : List (ℕ × α)) : ℕ → (ℕ → α) → (ℕ → α)
  | 0, a => applyDelays ds 0 a
  | m + 1, a => splat_filter_reverb ds m (applyDelays ds (m + 1) a)

/-- Total gain routed from source index `i` to target index `j` by the taps:
the sum of the gains of the taps whose time offset sends `i` to `j`. -/
def delayContrib {α : Type} [CommRing α] (ds : List (ℕ × α)) (i j : ℕ) : α :=
  (ds.map (fun d => if j = i + d.1 then d.2 else 0)).sum

/-- Modelled from the spec's description of the reverb pass: sample `j` of
the result is its pre-reverb value plus, for every source index `i ≤ m` and
every tap `(time, gain)` with `i + time = j`, the *pre-reverb* sample `i`
times `gain` — i.e. every read sees the pre-reverb value of that sample. -/
def reverbSpecRead {α : Type} [CommRing α] (ds : List (ℕ × α)) (m : ℕ) (a : ℕ → α) : ℕ → α :=
  fun j => a j + ((List.range (m + 1)).map (fun i => a i * delayContrib ds i j)).sum

/-- Reassemble a little-endian signed 16-bit sample from two bytes
(`*(int16_t *)in` on the interleaved little-endian byte stream). -/
def int16Of (lo hi : ℕ) : ℤ :=
  if lo + 256 * hi < 32768 then (lo + 256 * hi : ℤ) else (lo + 256 * hi : ℤ) - 65536

/-- C `Fragment_import_bytes` (`_geomusic.c:299`): only width 2 is supported;
channel count and rate must match the fragment; the byte count must be a
whole number of frames.  Grows the buffer to `start + n_samples`, then
overwrites samples `[start, start + n_samples)` of every channel with the
decoded int16 divided by `32678.0` (sic — the divisor the C source uses). -/
def Fragment_import_bytes (frag : Fragment ℚ) (bytes : List ℕ) (start : ℕ)
    (sample_width sample_rate n_channels : ℕ) : Option (Fragment ℚ) :=
  if sample_width ≠ 2 then none
  else if n_channels ≠ frag.n_channels then none
  else if sample_rate ≠ frag.rate then none
  else if bytes.length % (n_channels * 2) ≠ 0 then none
  else
    some { do_resize frag (start + bytes.length / (n_channels * 2)) with
      data := fun c i =>
        if c < frag.n_channels ∧ start ≤ i ∧ i < start + bytes.length / (n_channels * 2) then
          (int16Of (bytes.getD ((i - start) * (n_channels * 2) + 2 * c) 0)
              (bytes.getD ((i - start) * (n_channels * 2) + 2 * c + 1) 0) : ℚ) / 32678
        else (do_resize frag (start + bytes.length / (n_channels * 2))).data c i }

/-- C float-to-int conversion: truncation toward zero. -/
def truncToInt (q : ℚ) : ℤ := if 0 ≤ q then ⌊q⌋ else ⌈q⌉

/-- The sample conversion of `Fragment_as_bytes` (`_geomusic.c:397`):
values below `-1.0` clamp to `-32767`, values above `1.0` clamp to `32767`,
anything in between converts as `(int16_t)(z * 32767)` (truncation). -/
def pcm16 (z : ℚ) : ℤ :=
  if z < -1 then -32767
  else if 1 < z then 32767
  else truncToInt (z * 32767)

/-- C `Fragment_as_bytes` (`_geomusic.c:363`): one interleaved little-endian
int16 frame per sample index (`s & 0xFF` then `(s >> 8) & 0xFF`). -/
def Fragment_as_bytes (frag : Fragment ℚ) : List ℕ :=
  ((List.range frag.length).map fun i =>
    ((List.range frag.n_channels).map fun c =>
      [((pcm16 (frag.data c i)) % 256).toNat,
       (((pcm16 (frag.data c i)).fdiv 256) % 256).toNat]).flatten).flatten

/-- `start_sample = start * self->rate` of `Fragment_mix` (`_geomusic.c:281`):
a C `double` to `size_t` conversion, i.e. truncation (floor for `start ≥ 0`),
not rounding. -/
def startSample (rate : ℕ) (start : ℚ) : ℕ := (⌊start * (rate : ℚ)⌋).toNat

/-- C `Fragment_mix` (`_geomusic.c:258`): errors on channel-count or rate
mismatch; otherwise grows the destination to `start_sample + src.length` and
adds `src.data[c][k]` into `dest.data[c][start_sample + k]` for every
channel and every `k < src.length`. -/
def Fragment_mix (dest src : Fragment ℚ) (start : ℚ) : Option (Fragment ℚ) :=
  if src.n_channels ≠ dest.n_channels then none
  else if src.rate ≠ dest.rate then none
  else
    some { do_resize dest (startSample dest.rate start + src.length) with
      data := fun c i =>
        if c < dest.n_channels ∧ startSample dest.rate start ≤ i ∧
            i < startSample dest.rate start + src.length then
          (do_resize dest (startSample dest.rate start + src.length)).data c i
            + src.data c (i - startSample dest.rate start)
        else (do_resize dest (startSample dest.rate start + src.length)).data c i }

/-- The per-channel scan of `Fragment_normalize` (`_geomusic.c:451`):
accumulate `avg += x / length`, track the running minimum in `neg`
(seeded `1.0`) and the running maximum in `pos` (seeded `-1.0`).
Returns `(avg, neg, pos)`. -/
def normScan {α : Type} [LinearOrderedField α] (len : ℕ) (chan : ℕ → α) : α × α × α :=
  (List.range len).foldl
    (fun s i => (s.1 + chan i / (len : α), min s.2.1 (chan i), max s.2.2 (chan i)))
    (0, 1, -1)

/-- Per-channel peak of `Fragment_normalize` (`_geomusic.c:461`):
`max |neg - avg| |pos - avg|`. -/
def chanPeak {α : Type} [LinearOrderedField α] (len : ℕ) (chan : ℕ → α) : α :=
  max |(normScan len chan).2.1 - (normScan len chan).1|
    |(normScan len chan).2.2 - (normScan len chan).1|

/-- Global peak of `Fragment_normalize` (`_geomusic.c:442`): the largest
per-channel peak, seeded at `0.0`. -/
def normalizePeak {α : Type} [LinearOrderedField α] (frag : Fragment α) : α :=
  (List.range frag.n_channels).foldl
    (fun pk c => max pk (chanPeak frag.length (frag.data c))) 0

/-- `dB2lin` (`_geomusic.c:8`): `pow10(dB / 20)`. -/
noncomputable def dB2lin (x : ℝ) : ℝ := (10 : ℝ) ^ (x / 20)

/-- `lin2dB` (`_geomusic.c:7`): `20 * log10(level)`. -/
noncomputable def lin2dB (x : ℝ) : ℝ := 20 * (Real.log x / Real.log 10)

/-- C `Fragment_normalize` (`_geomusic.c:422`): compute per-channel averages
and the global peak, then rewrite every sample as
`(x - chan_avg) * (dB2lin level / peak)`. -/
noncomputable def Fragment_normalize (frag : Fragment ℝ) (level : ℝ) : Fragment ℝ :=
  { frag with
    data := fun c i =>
      if c < frag.n_channels ∧ i < frag.length then
        (frag.data c i - (normScan frag.length (frag.data c)).1)
          * (dB2lin level / normalizePeak frag)
      else frag.data c i }

open Classical in
/-- Per-channel linear gain of one overtone in `geomusic_overtones`
(`_geomusic.c:774` and the Nyquist guard at `_geomusic.c:783`): the gain is
`dB2lin(overtone_dB) * dB2lin(fundamental_dB)`, forced to zero when
`ot.freq * freq >= rate / 2` — note `rate / 2` is C *unsigned integer*
division. -/
noncomputable def overtoneGains (rate : ℕ) (freq : ℝ) (levels : ℕ → ℝ)
    (ot : ℝ × (ℕ → ℝ)) (c : ℕ) : ℝ :=
  if ((rate / 2 : ℕ) : ℝ) ≤ ot.1 * freq then 0
  else dB2lin (ot.2 c) * dB2lin (levels c)

/-- C `geomusic_overtones` (`_geomusic.c:689`): for every sample index `i`
and channel `c`, *add* `sin(2π·freq/rate · i · ot.freq) * gain(ot, c)`
summed over all overtones into the existing buffer contents. -/
noncomputable def geomusic_overtones (frag : Fragment ℝ) (freq : ℝ) (levels : ℕ → ℝ)
    (ots : List (ℝ × (ℕ → ℝ))) : Fragment ℝ :=
  { frag with
    data := fun c i =>
      if c < frag.n_channels ∧ i < frag.length then
        frag.data c i +
          (ots.map fun ot =>
            Real.sin (2 * Real.pi * freq / (frag.rate : ℝ) * i * ot.1)
              * overtoneGains frag.rate freq levels ot c).sum
      else frag.data c i }

/-- `RAND_MAX` of the C library (glibc value). -/
def RAND_MAX : ℝ := 2147483647

/-- The per-channel expanded delay line of `geomusic_reverb`
(`_geomusic.c:951`): for tap `d` of channel `c`, the jittered time
`time * (1 + rand()*time_factor/RAND_MAX)` is converted to a sample count by
C `double`→`size_t` truncation, and the jittered gain
`gain - gain_factor + rand()*gain_factor*2/RAND_MAX` is converted to linear.
`rnd k` is the value of the `k`-th `rand()` call after `srand`; the C code
draws the `n_channels` times of tap `d` first, then its `n_channels` gains. -/
noncomputable def reverbDelays (frag : Fragment ℝ) (delays : List (ℝ × ℝ))
    (tf gf : ℝ) (rnd : ℕ → ℝ) (c : ℕ) : List (ℕ × ℝ) :=
  (List.range delays.length).map fun d =>
    ((⌊(delays.getD d (0, 0)).1 * (1 + rnd (2 * frag.n_channels * d + c) * tf / RAND_MAX)
        * (frag.rate : ℝ)⌋).toNat,
     dB2lin ((delays.getD d (0, 0)).2 - gf
        + rnd (2 * frag.n_channels * d + frag.n_channels + c) * gf * 2 / RAND_MAX))

/-- `max_delay` of `geomusic_reverb` (`_geomusic.c:949`): the largest
jittered sample offset across all channels and taps. -/
noncomputable def reverbMaxDelay (frag : Fragment ℝ) (delays : List (ℝ × ℝ))
    (tf gf : ℝ) (rnd : ℕ → ℝ) : ℕ :=
  (List.range frag.n_channels).foldl
    (fun m c => (reverbDelays frag delays tf gf rnd c).foldl (fun m d => max m d.1) m) 0

open Classical in
/-- C `geomusic_reverb` (`_geomusic.c:905`): fails if any delay time is
negative; otherwise expands the per-channel jittered delay lines, grows the
buffer by `max_delay`, and runs the descending accumulation pass on every
channel with `max_index = old_length - 1`. -/
noncomputable def geomusic_reverb (frag : Fragment ℝ) (delays : List (ℝ × ℝ))
    (tf gf : ℝ) (rnd : ℕ → ℝ) : Option (Fragment ℝ) :=
  if ∀ dl ∈ delays, 0 ≤ dl.1 then
    some { do_resize frag (frag.length + reverbMaxDelay frag delays tf gf rnd) with
      data := fun c =>
        if c < frag.n_channels then
          splat_filter_reverb (reverbDelays frag delays tf gf rnd c) (frag.length - 1)
            ((do_resize frag (frag.length + reverbMaxDelay frag delays tf gf rnd)).data c)
        else (do_resize frag (frag.length + reverbMaxDelay frag delays tf gf rnd)).data c }
  else none

/-- Example fragment used by witnesses: 1 channel, constant data, length 1. -/
def Fres : Fragment ℚ := ⟨1, 8000, 1, fun _ _ => 5⟩

/-- Example fragment used by witnesses: 1 channel, data `i ↦ i`, length 2. -/
def Frev : Fragment ℚ := ⟨1, 8000, 2, fun _ i => i⟩

/-- Empty 1-channel fragment used as import destination in counterexamples. -/
def Fimp : Fragment ℚ := ⟨1, 8000, 0, fun _ _ => 0⟩

/-- A 1-channel fragment with non-trivial prior data, import witness target. -/
def Fpre : Fragment ℚ := ⟨1, 8000, 1, fun _ _ => 7⟩

/-- A silent (all-zero) non-empty 1-channel fragment. -/
def Fsil : Fragment ℚ := ⟨1, 8000, 1, fun _ _ => 0⟩

/-- Mix destination of the C4 counterexample: 1 channel, rate 2, length 0. -/
def Amix : Fragment ℚ := ⟨1, 2, 0, fun _ _ => 0⟩

/-- Mix source of the C4 counterexample: 1 channel, rate 2, one sample `1`. -/
def Bmix : Fragment ℚ := ⟨1, 2, 1, fun _ _ => 1⟩

/-- Mix destination for the C4 witness: 1 channel, rate 2, two samples `1`. -/
def Cmix : Fragment ℚ := ⟨1, 2, 2, fun _ _ => 1⟩

/-- Mix source for the C4 witness: 1 channel, rate 2, one sample `10`. -/
def Dmix : Fragment ℚ := ⟨1, 2, 1, fun _ _ => 10⟩

/-- Real-valued fragment for the reverb witness: 1 channel, one sample `1`. -/
noncomputable def Frvb : Fragment ℝ := ⟨1, 8000, 1, fun _ _ => 1⟩

/-- Real-valued fragment for the overtones witness: 1 channel, rate 2. -/
noncomputable def Fovt : Fragment ℝ := ⟨1, 2, 4, fun _ _ => 0⟩

theorem revLoop_eq {α : Type} (a : ℕ → α) (i j : ℕ) :
    revLoop a i j = fun x => if i ≤ x ∧ x ≤ j then a (i + j - x) else a x := by
  generalize hn : j - i = n
  induction n using Nat.strong_induction_on generalizing a i j with
  | _ n ih =>
    rw [revLoop]
    by_cases h : i < j
    · rw [dif_pos h]
      rw [ih (j - 1 - (i + 1)) (by omega) _ (i + 1) (j - 1) rfl]
      funext x
      by_cases h1 : i + 1 ≤ x ∧ x ≤ j - 1
      · simp only [if_pos h1]
        rw [if_neg (by omega : ¬ (i + 1 + (j - 1) - x = i)),
          if_neg (by omega : ¬ (i + 1 + (j - 1) - x = j)),
          if_pos (by omega : i ≤ x ∧ x ≤ j)]
        congr 1
        omega
      · simp only [if_neg h1]
        by_cases hxi : x = i
        · rw [if_pos hxi, if_pos (by omega : i ≤ x ∧ x ≤ j)]
          congr 1
          omega
        · rw [if_neg hxi]
          by_cases hxj : x = j
          · rw [if_pos hxj, if_pos (by omega : i ≤ x ∧ x ≤ j)]
            congr 1
            omega
          · rw [if_neg hxj, if_neg (by omega : ¬ (i ≤ x ∧ x ≤ j))]
    · rw [dif_neg h]
      funext x
      by_cases hx : i ≤ x ∧ x ≤ j
      · rw [if_pos hx]
        congr 1
        omega
      · rw [if_neg hx]

theorem do_resize_n_channels {α : Type} [Zero α] (frag : Fragment α) (n : ℕ) :
    (do_resize frag n).n_channels = frag.n_channels := by
  unfold do_resize
  split <;> rfl

theorem do_resize_rate {α : Type} [Zero α] (frag : Fragment α) (n : ℕ) :
    (do_resize frag n).rate = frag.rate := by
  unfold do_resize
  split <;> rfl

theorem do_resize_length {α : Type} [Zero α] (frag : Fragment α) (n : ℕ) :
    (do_resize frag n).length = max frag.length n := by
  unfold do_resize
  split <;> simp <;> omega

theorem do_resize_data {α : Type} [Zero α] (frag : Fragment α) (n c i : ℕ) :
    (do_resize frag n).data c i =
      if c < frag.n_channels ∧ frag.length ≤ i ∧ i < n then 0 else frag.data c i := by
  unfold do_resize
  split
  · rw [if_neg (by omega)]
  · rfl

/-- C8: `resize(n)` with `n ≤ length` is a no-op (length and every sample
unchanged); with `n > length` the new length is `n`, every sample of every
channel in `[old_length, n)` is exactly zero, every sample in
`[0, old_length)` keeps its prior value, and the length never shrinks. -/
theorem resize_spec {α : Type} [Zero α] (frag : Fragment α) (n : ℕ) :
    frag.length ≤ (do_resize frag n).length ∧
    (n ≤ frag.length → do_resize frag n = frag) ∧
    (frag.length < n →
      (do_resize frag n).length = n ∧
      (∀ c, c < frag.n_channels → ∀ i, frag.length ≤ i → i < n →
        (do_resize frag n).data c i = 0) ∧
      (∀ c, c < frag.n_channels → ∀ i, i < frag.length →
        (do_resize frag n).data c i = frag.data c i)) := by
  by_cases hn : n ≤ frag.length
  · refine ⟨by simp [do_resize, hn], fun _ => by simp [do_resize, hn],
      fun h => absurd h (by omega)⟩
  · refine ⟨?_, fun h => absurd h hn, fun h => ⟨?_, ?_, ?_⟩⟩
    · simp only [do_resize, if_neg hn]
      omega
    · simp [do_resize, hn]
    · intro c hc i hi hin
      simp [do_resize, hn, hc, hi, hin]
    · intro c hc i hi
      simp only [do_resize, if_neg hn]
      rw [if_neg (by omega)]

/-- Witness for C8 at a concrete fragment: resizing to 1 is a no-op, resizing
to 3 gives length 3, zero-fills index 2 and keeps index 0. -/
theorem resize_spec_witness :
    do_resize Fres 1 = Fres ∧ (do_resize Fres 3).length = 3 ∧
    (do_resize Fres 3).data 0 2 = 0 ∧ (do_resize Fres 3).data 0 0 = Fres.data 0 0 :=
  ⟨(resize_spec Fres 1).2.1 (by decide),
   ((resize_spec Fres 3).2.2 (by decide)).1,
   ((resize_spec Fres 3).2.2 (by decide)).2.1 0 (by decide) 2 (by decide) (by decide),
   ((resize_spec Fres 3).2.2 (by decide)).2.2 0 (by decide) 0 (by decide)⟩

/-- C6: applying `reverse` twice restores the buffer exactly, for every
channel and sample (stated for non-empty buffers: with `length = 0` the C
loop starts at `j = SIZE_MAX` and reads out of bounds). -/
theorem reverse_involution {α : Type} (frag : Fragment α) (h : 0 < frag.length) :
    geomusic_reverse (geomusic_reverse frag) = frag := by
  obtain ⟨ch, r, len, d⟩ := frag
  simp only [geomusic_reverse, Fragment.mk.injEq, true_and]
  funext c x
  by_cases hc : c < ch
  · simp only [if_pos hc, revLoop_eq]
    by_cases hx : x ≤ len - 1
    · rw [if_pos ⟨Nat.zero_le x, hx⟩,
        if_pos (by omega : 0 ≤ 0 + (len - 1) - x ∧ 0 + (len - 1) - x ≤ len - 1)]
      congr 1
      omega
    · rw [if_neg (by omega : ¬ (0 ≤ x ∧ x ≤ len - 1)),
        if_neg (by omega : ¬ (0 ≤ x ∧ x ≤ len - 1))]
  · simp only [if_neg hc]

/-- Witness for C6 at a concrete non-empty fragment. -/
theorem reverse_involution_witness :
    0 < Frev.length ∧ geomusic_reverse (geomusic_reverse Frev) = Frev :=
  ⟨by decide, reverse_involution Frev (by decide)⟩

theorem tapFold_eq {α : Type} [CommRing α] (s : α) (i : ℕ) (ds : List (ℕ × α))
    (b : ℕ → α) (j : ℕ) :
    (ds.foldl (tapStep s i) b) j = b j + s * delayContrib ds i j := by
  induction ds generalizing b with
  | nil => simp [delayContrib]
  | cons d ds ih =>
    rw [List.foldl_cons, ih]
    simp only [delayContrib, List.map_cons, List.sum_cons, tapStep]
    by_cases hj : j = i + d.1
    · rw [if_pos hj, if_pos hj, ← hj]
      ring
    · rw [if_neg hj, if_neg hj]
      ring

theorem applyDelays_apply {α : Type} [CommRing α] (ds : List (ℕ × α)) (i : ℕ)
    (a : ℕ → α) (j : ℕ) :
    applyDelays ds i a j = a j + a i * delayContrib ds i j :=
  tapFold_eq (a i) i ds a j

theorem delayContrib_eq_zero {α : Type} [CommRing α] (ds : List (ℕ × α)) {i j : ℕ}
    (h : j < i) : delayContrib ds i j = 0 := by
  refine List.sum_eq_zero ?_
  intro x hx
  obtain ⟨d, _, rfl⟩ := List.mem_map.mp hx
  rw [if_neg (by omega)]

theorem reverb_pass_eq {α : Type} [CommRing α] (ds : List (ℕ × α)) (m : ℕ) (a : ℕ → α) :
    splat_filter_reverb ds m a = reverbSpecRead ds m a := by
  induction m generalizing a with
  | zero =>
    funext j
    simp only [splat_filter_reverb, reverbSpecRead, applyDelays_apply, List.range_succ,
      List.range_zero, List.nil_append, List.map_cons, List.map_nil, List.sum_cons,
      List.sum_nil, add_zero]
  | succ m ih =>
    funext j
    rw [splat_filter_reverb, ih]
    simp only [reverbSpecRead]
    rw [applyDelays_apply]
    have hmap : (List.range (m + 1)).map
          (fun i => applyDelays ds (m + 1) a i * delayContrib ds i j)
        = (List.range (m + 1)).map (fun i => a i * delayContrib ds i j) := by
      refine List.map_congr_left ?_
      intro i hi
      rw [applyDelays_apply, delayContrib_eq_zero ds (by
        have := List.mem_range.mp hi
        omega)]
      ring_nf
    rw [hmap]
    conv_rhs => rw [List.range_succ]
    rw [List.map_append, List.sum_append, List.map_cons, List.map_nil,
      List.sum_cons, List.sum_nil]
    ring

/-- C1: the reverb accumulation pass (sample index walked from
`old_length - 1` down to `0`, each tap adding `sample[i] * gain` into
`sample[i + time]`) computes exactly the function in which every read takes
the pre-reverb value of the buffer: no index is ever read after it has been
written by the same pass. -/
theorem reverb_pass_reads_pre_reverb {α : Type} [CommRing α] (ds : List (ℕ × α))
    (m : ℕ) (a : ℕ → α) :
    splat_filter_reverb ds m a = reverbSpecRead ds m a :=
  reverb_pass_eq ds m a

/-- C2: the PCM decode divisor.  The C source divides each decoded int16 by
`32678.0`, not `32768.0`: importing the single little-endian frame
`0x00 0x40` (the int16 value `16384`) into an empty 1-channel fragment
yields `16384 / 32678`, which is not `16384 / 32768 = 1/2` as the claim
(and the spec's own §9 note) require. -/
theorem import_bytes_divisor_defect :
    ∃ r, Fragment_import_bytes Fimp [0, 64] 0 2 8000 1 = some r ∧
      r.data 0 0 = 16384 / 32678 ∧ r.data 0 0 ≠ (16384 : ℚ) / 32768 := by
  refine ⟨_, rfl, ?_, ?_⟩ <;> norm_num [Fimp, do_resize, int16Of, List.getD]

/-- C9: a successful `import_bytes` call writes only the sample indices
`[start, start + n_bytes / (channels * 2))` of each channel; every sample
outside that range keeps its prior value — except those in the newly grown
tail `[old_length, start)`, which are zero — and the channel count and
sample rate are unchanged. -/
theorem import_bytes_frame_effect (frag : Fragment ℚ) (bytes : List ℕ) (start : ℕ)
    (hmod : bytes.length % (frag.n_channels * 2) = 0) :
    ∃ r, Fragment_import_bytes frag bytes start 2 frag.rate frag.n_channels = some r ∧
      r.n_channels = frag.n_channels ∧ r.rate = frag.rate ∧
      ∀ c, c < frag.n_channels → ∀ i,
        (i < start ∨ start + bytes.length / (frag.n_channels * 2) ≤ i) →
        r.data c i =
          if frag.length ≤ i ∧ i < start + bytes.length / (frag.n_channels * 2) then 0
          else frag.data c i := by
  rw [Fragment_import_bytes, if_neg (by simp), if_neg (by simp), if_neg (by simp),
    if_neg (by simp [hmod])]
  refine ⟨_, rfl, do_resize_n_channels frag _, do_resize_rate frag _, ?_⟩
  intro c hc i hi
  simp only
  rw [if_neg (by omega), do_resize_data]
  by_cases h : frag.length ≤ i ∧ i < start + bytes.length / (frag.n_channels * 2)
  · rw [if_pos h, if_pos ⟨hc, h.1, h.2⟩]
  · rw [if_neg h, if_neg (by tauto)]

/-- Witness for C9: import one frame (`0x00 0x40`) at start offset 2 into a
1-channel fragment of length 1: indices 0 (prior data) and 1 (grown tail)
are untouched per the theorem. -/
theorem import_bytes_frame_effect_witness :
    List.length [0, 64] % (Fpre.n_channels * 2) = 0 ∧
    (∃ r, Fragment_import_bytes Fpre [0, 64] 2 2 Fpre.rate Fpre.n_channels = some r ∧
      r.n_channels = Fpre.n_channels ∧ r.rate = Fpre.rate ∧
      ∀ c, c < Fpre.n_channels → ∀ i,
        (i < 2 ∨ 2 + List.length [0, 64] / (Fpre.n_channels * 2) ≤ i) →
        r.data c i =
          if Fpre.length ≤ i ∧ i < 2 + List.length [0, 64] / (Fpre.n_channels * 2) then 0
          else Fpre.data c i) :=
  ⟨by decide, import_bytes_frame_effect Fpre [0, 64] 2 (by decide)⟩

theorem pcm16_range (z : ℚ) : -32767 ≤ pcm16 z ∧ pcm16 z ≤ 32767 := by
  unfold pcm16
  by_cases h1 : z < -1
  · rw [if_pos h1]
    exact ⟨le_refl _, by norm_num⟩
  · rw [if_neg h1]
    push_neg at h1
    by_cases h2 : 1 < z
    · rw [if_pos h2]
      exact ⟨by norm_num, le_refl _⟩
    · rw [if_neg h2]
      push_neg at h2
      unfold truncToInt
      by_cases h3 : 0 ≤ z * 32767
      · rw [if_pos h3]
        constructor
        · have h4 : (0 : ℤ) ≤ ⌊z * 32767⌋ := Int.floor_nonneg.mpr h3
          omega
        · have h5 : z * 32767 ≤ 32767 := by nlinarith
          calc ⌊z * 32767⌋ ≤ ⌊(32767 : ℚ)⌋ := Int.floor_le_floor h5
          _ = 32767 := by norm_num
      · rw [if_neg h3]
        push_neg at h3
        constructor
        · have h6 : ((-32767 : ℤ) : ℚ) ≤ z * 32767 := by push_cast; nlinarith
          have h8 := Int.ceil_le_ceil h6
          rwa [Int.ceil_intCast] at h8
        · have h7 : ⌈z * 32767⌉ ≤ ⌈(0 : ℚ)⌉ := Int.ceil_le_ceil h3.le
          simp only [Int.ceil_zero] at h7
          omega

/-- C10: PCM encode only ever emits int16 values in `[-32767, 32767]` —
never `-32768` — for every buffer, channel and sample index: values below
`-1.0` clamp to `-32767`, values above `1.0` clamp to `32767`, and values
in `[-1, 1]` truncate `value * 32767` which stays inside that range. -/
theorem as_bytes_sample_range (frag : Fragment ℚ) (c i : ℕ) :
    -32767 ≤ pcm16 (frag.data c i) ∧ pcm16 (frag.data c i) ≤ 32767 :=
  pcm16_range (frag.data c i)

/-- C4 counterexample: at rate 2 and start 7/4 s, `start * rate = 3.5`; the
claim's `round` gives 4, demanding result length at least `4 + 1 = 5` with
the source sample added at index 4, but the C `double`→`size_t` conversion
truncates to 3: the result has length 4 (< 5), the source sample lands at
index 3, and index 4 stays zero. -/
theorem mix_round_counterexample :
    round ((7 / 4 : ℚ) * (Amix.rate : ℚ)) = 4 ∧
    ∃ r, Fragment_mix Amix Bmix (7 / 4) = some r ∧
      r.length = 4 ∧ ¬ (4 + Bmix.length ≤ r.length) ∧
      r.data 0 3 = 1 ∧ r.data 0 4 = 0 := by
  constructor
  · rw [round_eq]
    norm_num [Amix]
  · refine ⟨_, rfl, ?_, ?_, ?_, ?_⟩ <;>
      norm_num [Fragment_mix, startSample, do_resize, Amix, Bmix,
        show Int.toNat 3 = 3 from rfl]

/-- C4 amended: with matching channel counts and sample rates and a
non-negative start time, mix computes `start_sample = floor(start * rate)`
(C truncation, *not* rounding), grows dest to at least
`start_sample + src.length`, adds `src.data[c][k]` into
`dest.data[c][start_sample + k]` for every channel and `k < src.length`
(reading zero where dest was grown), leaves every other index at its grown
dest value, and — the model being functional — does not modify the source. -/
theorem mix_floor_spec (dest src : Fragment ℚ) (start : ℚ)
    (hc : src.n_channels = dest.n_channels) (hr : src.rate = dest.rate)
    (_hs : 0 ≤ start) :
    ∃ r, Fragment_mix dest src start = some r ∧
      r.n_channels = dest.n_channels ∧ r.rate = dest.rate ∧
      startSample dest.rate start + src.length ≤ r.length ∧
      (∀ c, c < dest.n_channels → ∀ k, k < src.length →
        r.data c (startSample dest.rate start + k) =
          (if startSample dest.rate start + k < dest.length
            then dest.data c (startSample dest.rate start + k) else 0) + src.data c k) ∧
      (∀ c i,
        (i < startSample dest.rate start ∨ startSample dest.rate start + src.length ≤ i) →
        r.data c i =
          if c < dest.n_channels ∧ dest.length ≤ i ∧
              i < startSample dest.rate start + src.length
          then 0 else dest.data c i) := by
  rw [Fragment_mix, if_neg (by simp [hc]), if_neg (by simp [hr])]
  refine ⟨_, rfl, do_resize_n_channels dest _, do_resize_rate dest _, ?_, ?_, ?_⟩
  · rw [do_resize_length]
    omega
  · intro c hcc k hk
    simp only
    rw [if_pos ⟨hcc, by omega, by omega⟩, do_resize_data]
    congr 1
    · by_cases hl : startSample dest.rate start + k < dest.length
      · rw [if_neg (by omega), if_pos hl]
      · rw [if_pos ⟨hcc, by omega, by omega⟩, if_neg hl]
    · congr 1
      omega
  · intro c i hi
    simp only
    rw [if_neg (by rintro ⟨-, h2, h3⟩; omega), do_resize_data]

/-- Witness for C4 (amended): mixing a one-sample source into a two-sample
destination at start 1/2 s and rate 2 (`start_sample = 1`). -/
theorem mix_floor_spec_witness :
    Dmix.n_channels = Cmix.n_channels ∧ Dmix.rate = Cmix.rate ∧ (0 : ℚ) ≤ 1 / 2 ∧
    (∃ r, Fragment_mix Cmix Dmix (1 / 2) = some r ∧
      r.n_channels = Cmix.n_channels ∧ r.rate = Cmix.rate ∧
      startSample Cmix.rate (1 / 2) + Dmix.length ≤ r.length ∧
      (∀ c, c < Cmix.n_channels → ∀ k, k < Dmix.length →
        r.data c (startSample Cmix.rate (1 / 2) + k) =
          (if startSample Cmix.rate (1 / 2) + k < Cmix.length
            then Cmix.data c (startSample Cmix.rate (1 / 2) + k) else 0) + Dmix.data c k) ∧
      (∀ c i,
        (i < startSample Cmix.rate (1 / 2) ∨ startSample Cmix.rate (1 / 2) + Dmix.length ≤ i) →
        r.data c i =
          if c < Cmix.n_channels ∧ Cmix.length ≤ i ∧
              i < startSample Cmix.rate (1 / 2) + Dmix.length
          then 0 else Cmix.data c i)) :=
  ⟨rfl, rfl, by norm_num, mix_floor_spec Cmix Dmix (1 / 2) rfl rfl (by norm_num)⟩

theorem normScan_fold_zero {α : Type} [LinearOrderedField α] (d : α) (chan : ℕ → α) :
    ∀ n, 0 < n → (∀ i, i < n → chan i = 0) →
      (List.range n).foldl
        (fun s i => (s.1 + chan i / d, min s.2.1 (chan i), max s.2.2 (chan i)))
        (0, 1, -1) = (0, 0, 0) := by
  intro n
  induction n with
  | zero => omega
  | succ n ih =>
    intro _ hz
    rw [List.range_succ, List.foldl_append]
    by_cases hn : 0 < n
    · rw [ih hn (fun i hi => hz i (by omega))]
      simp only [List.foldl_cons, List.foldl_nil, hz n (by omega)]
      norm_num
    · have : n = 0 := by omega
      subst this
      simp only [List.range_zero, List.foldl_nil, List.foldl_cons, hz 0 (by omega)]
      norm_num

theorem normScan_silent {α : Type} [LinearOrderedField α] (len : ℕ) (chan : ℕ → α)
    (hl : 0 < len) (hz : ∀ i, i < len → chan i = 0) :
    normScan len chan = (0, 0, 0) :=
  normScan_fold_zero (len : α) chan len hl hz

theorem chanPeak_silent {α : Type} [LinearOrderedField α] (len : ℕ) (chan : ℕ → α)
    (hl : 0 < len) (hz : ∀ i, i < len → chan i = 0) :
    chanPeak len chan = 0 := by
  unfold chanPeak
  rw [normScan_silent len chan hl hz]
  norm_num

theorem foldl_max_zero {α : Type} [LinearOrderedField α] (f : ℕ → α) (l : List ℕ)
    (h : ∀ c ∈ l, f c = 0) : l.foldl (fun pk c => max pk (f c)) 0 = 0 := by
  induction l with
  | nil => rfl
  | cons c l ih =>
    rw [List.foldl_cons, h c (by simp)]
    simp only [max_self]
    exact ih (fun c hc => h c (List.mem_cons_of_mem _ hc))

theorem normalizePeak_silent (frag : Fragment ℚ) (hl : 0 < frag.length)
    (hz : ∀ c, c < frag.n_channels → ∀ i, i < frag.length → frag.data c i = 0) :
    normalizePeak frag = 0 := by
  unfold normalizePeak
  refine foldl_max_zero _ _ ?_
  intro c hc
  exact chanPeak_silent frag.length (frag.data c) hl
    (fun i hi => hz c (List.mem_range.mp hc) i hi)

/-- C3 amended: the excursion trackers are seeded at `neg = +1.0` (the
running *minimum*) and `pos = -1.0` (the running *maximum*) — the reverse of
the claimed floor/ceiling seeding — so on a non-empty silent buffer every
channel's computed peak deviation is exactly `0`, the global peak is `0`,
and the gain computation `dB2lin(level) / peak` is a division by zero. -/
theorem normalize_silent_peak_zero (frag : Fragment ℚ) (hl : 0 < frag.length)
    (hz : ∀ c, c < frag.n_channels → ∀ i, i < frag.length → frag.data c i = 0) :
    normalizePeak frag = 0 :=
  normalizePeak_silent frag hl hz

/-- C3 counterexample: on the silent 1-channel fragment `Fsil` the computed
peak is `0` — it is *not* at least `1.0 - avg = 1` and it is zero, so the
claim's "the gain division never divides by zero" fails on the code. -/
theorem normalize_peak_counterexample :
    normalizePeak Fsil = 0 ∧
    ¬ (1 - (normScan Fsil.length (Fsil.data 0)).1 ≤ normalizePeak Fsil) := by
  have h0 : normalizePeak Fsil = 0 :=
    normalizePeak_silent Fsil (by decide) (fun c _ i _ => rfl)
  have h1 : (normScan Fsil.length (Fsil.data 0)).1 = 0 := by
    rw [normScan_silent Fsil.length (Fsil.data 0) (by decide) (fun i _ => rfl)]
  rw [h0, h1]
  norm_num

/-- Witness for C3 (amended) at a concrete silent fragment. -/
theorem normalize_silent_peak_zero_witness :
    0 < Fsil.length ∧
    (∀ c, c < Fsil.n_channels → ∀ i, i < Fsil.length → Fsil.data c i = 0) ∧
    normalizePeak Fsil = 0 :=
  ⟨by decide, fun _ _ _ _ => rfl,
   normalize_silent_peak_zero Fsil (by decide) (fun _ _ _ _ => rfl)⟩

/-- C7: an overtone whose ratio times the fundamental frequency is at least
`sample_rate / 2` has its gain forced to zero for all channels and
contributes exactly zero to every sample: the output buffer is identical to
the same call without that overtone.  (The C guard compares against the
*integer* division `rate / 2`, which is at most the real `rate / 2`, so the
claimed condition always fires the guard.) -/
theorem overtones_nyquist_zero (frag : Fragment ℝ) (freq : ℝ) (levels : ℕ → ℝ)
    (l₁ l₂ : List (ℝ × (ℕ → ℝ))) (ot : ℝ × (ℕ → ℝ))
    (h : (frag.rate : ℝ) / 2 ≤ ot.1 * freq) :
    geomusic_overtones frag freq levels (l₁ ++ ot :: l₂) =
      geomusic_overtones frag freq levels (l₁ ++ l₂) := by
  obtain ⟨ch, rt, len, d⟩ := frag
  have hcast : ((rt / 2 : ℕ) : ℝ) ≤ ot.1 * freq := by
    refine le_trans (le_trans Nat.cast_div_le ?_) h
    norm_num
  have hgain : ∀ c, overtoneGains rt freq levels ot c = 0 := by
    intro c
    rw [overtoneGains, if_pos hcast]
  simp only [geomusic_overtones, Fragment.mk.injEq, true_and]
  funext c i
  by_cases hci : c < ch ∧ i < len
  · rw [if_pos hci, if_pos hci, List.map_append, List.sum_append, List.map_append,
      List.sum_append, List.map_cons, List.sum_cons, hgain c]
    ring
  · rw [if_neg hci, if_neg hci]

/-- Witness for C7: rate 2, fundamental 1, a single overtone of ratio 1
(`1 * 1 ≥ 2 / 2`): the call equals the call with no overtones at all. -/
theorem overtones_nyquist_zero_witness :
    (Fovt.rate : ℝ) / 2 ≤ (1 : ℝ) * 1 ∧
    geomusic_overtones Fovt 1 (fun _ => 0) [((1 : ℝ), fun _ => (0 : ℝ))] =
      geomusic_overtones Fovt 1 (fun _ => 0) [] :=
  ⟨by norm_num [Fovt],
   overtones_nyquist_zero Fovt 1 (fun _ => 0) [] [] (1, fun _ => 0) (by norm_num [Fovt])⟩

theorem reverbDelays_zero_tap (frag : Fragment ℝ) (rnd : ℕ → ℝ) (c : ℕ) :
    reverbDelays frag [(0, 0)] 0 0 rnd c = [(0, 1)] := by
  unfold reverbDelays
  norm_num [List.range_succ, dB2lin, Real.rpow_zero]

theorem reverbMaxDelay_zero_tap (frag : Fragment ℝ) (rnd : ℕ → ℝ) :
    reverbMaxDelay frag [(0, 0)] 0 0 rnd = 0 := by
  unfold reverbMaxDelay
  have h : ∀ l : List ℕ,
      l.foldl (fun m c =>
        (reverbDelays frag [(0, 0)] 0 0 rnd c).foldl (fun m d => max m d.1) m) 0 = 0 := by
    intro l
    induction l with
    | nil => rfl
    | cons c l ih =>
      rw [List.foldl_cons, reverbDelays_zero_tap]
      simpa using ih
  exact h _

theorem range_sum_single {α : Type} [CommRing α] (f : ℕ → α) (n j : ℕ) (h : j < n) :
    ((List.range n).map (fun k => if j = k then f k else 0)).sum = f j := by
  induction n with
  | zero => omega
  | succ n ih =>
    rw [List.range_succ, List.map_append, List.sum_append, List.map_cons, List.map_nil,
      List.sum_cons, List.sum_nil]
    by_cases hj : j < n
    · rw [ih hj, if_neg (by omega)]
      ring
    · have hjn : j = n := by omega
      subst hjn
      have hz : ((List.range j).map (fun k => if j = k then f k else 0)).sum = 0 := by
        refine List.sum_eq_zero ?_
        intro x hx
        obtain ⟨k, hk, rfl⟩ := List.mem_map.mp hx
        rw [if_neg (by have := List.mem_range.mp hk; omega)]
      rw [hz, if_pos rfl]
      ring

/-- C5: reverb with the single tap `(time = 0, gain_dB = 0)` and zero
time/gain factors succeeds on any non-empty buffer, leaves the length
(and channel count and rate) unchanged, and makes every sample at every
original index exactly double its pre-call value (the zero-delay tap adds
each sample to itself, `dB2lin 0 = 1`, `max_delay = 0`). -/
theorem reverb_zero_tap_doubles (frag : Fragment ℝ) (rnd : ℕ → ℝ) (h : 0 < frag.length) :
    ∃ r, geomusic_reverb frag [(0, 0)] 0 0 rnd = some r ∧
      r.length = frag.length ∧ r.n_channels = frag.n_channels ∧ r.rate = frag.rate ∧
      ∀ c, c < frag.n_channels → ∀ i, i < frag.length →
        r.data c i = 2 * frag.data c i := by
  have hval : ∀ dl ∈ [((0 : ℝ), (0 : ℝ))], 0 ≤ dl.1 := by
    intro dl hdl
    simp only [List.mem_singleton] at hdl
    rw [hdl]
  rw [geomusic_reverb, if_pos hval, reverbMaxDelay_zero_tap]
  have hg : do_resize frag (frag.length + 0) = frag := by
    simp [do_resize]
  rw [hg]
  refine ⟨_, rfl, rfl, rfl, rfl, ?_⟩
  intro c hc i hi
  simp only [if_pos hc]
  rw [reverbDelays_zero_tap, reverb_pass_eq]
  simp only [reverbSpecRead]
  have hrange : frag.length - 1 + 1 = frag.length := by omega
  rw [hrange]
  have hmap : (List.range frag.length).map
        (fun k => frag.data c k * delayContrib [(0, 1)] k i)
      = (List.range frag.length).map (fun k => if i = k then frag.data c k else 0) := by
    refine List.map_congr_left ?_
    intro k _
    have hk : delayContrib [((0 : ℕ), (1 : ℝ))] k i = if i = k then 1 else 0 := by
      simp [delayContrib]
    rw [hk]
    split <;> ring
  rw [hmap, range_sum_single (fun k => frag.data c k) frag.length i hi]
  ring

/-- Witness for C5 at a concrete one-sample fragment, with the zero random
stream. -/
theorem reverb_zero_tap_doubles_witness :
    0 < Frvb.length ∧
    (∃ r, geomusic_reverb Frvb [(0, 0)] 0 0 (fun _ => 0) = some r ∧
      r.length = Frvb.length ∧ r.n_channels = Frvb.n_channels ∧ r.rate = Frvb.rate ∧
      ∀ c, c < Frvb.n_channels → ∀ i, i < Frvb.length →
        r.data c i = 2 * Frvb.data c i) :=
  ⟨by norm_num [Frvb], reverb_zero_tap_doubles Frvb (fun _ => 0) (by norm_num [Frvb])⟩

end Splat
